import Mathlib

/-!
Verification of the gdb-index construction pipeline (src/elf/gdb-index.cc).

Shallow embedding conventions:
* byte buffers and names are `List Nat` (each element a byte value);
* machine integers are `Nat` with explicit `% 2^32` / `% 2^64` where the
  source wraps (u32 / u64 arithmetic);
* fatal errors (`Fatal(ctx) << ...`) are `Except.error`;
* the DWARF attribute form codes are an inductive type, since the numeric
  values live in a header outside the analysed sources.
-/

set_option maxRecDepth 4000

namespace GdbIndex

/-! ## gdb_hash (src/elf/gdb-index.cc lines 103-112) -/

/-- lowering of an ASCII uppercase byte, as done by `c = 'a' + c - 'A'`
in the source (65..90 are mapped to 97..122, everything else kept). -/
def lowerByte (c : Nat) : Nat := if 65 ≤ c ∧ c ≤ 90 then c + 32 else c

/-- one step of the hash loop: `h = h * 67 + c - 113` in u32 arithmetic.
Subtraction of 113 wraps, so we add `2^32 - 113` and reduce mod `2^32`. -/
def gdb_hash_step (h c : Nat) : Nat := (h * 67 + lowerByte c + (2 ^ 32 - 113)) % 2 ^ 32

/-- the hash function for .gdb_index, embedding `gdb_hash` from the source. -/
def gdb_hash (name : List Nat) : Nat := name.foldl gdb_hash_step 0

/-- one step of the reference fold, written from the words of the spec:
signed arithmetic `h ← h*67 + b − 113 (mod 2^32)` over the integers, with
`b ← b+32` for ASCII uppercase `b`. -/
def gdb_hash_ref_step (h : Int) (c : Nat) : Int :=
  (h * 67 + (if 65 ≤ c ∧ c ≤ 90 then (c : Int) + 32 else (c : Int)) - 113) % 2 ^ 32

/-- reference fold written from the words of the spec. -/
def gdb_hash_ref (name : List Nat) : Int := name.foldl gdb_hash_ref_step 0

lemma gdb_hash_step_cast (h c : Nat) :
    ((gdb_hash_step h c : Nat) : Int) = gdb_hash_ref_step (h : Int) c := by
  unfold gdb_hash_step gdb_hash_ref_step lowerByte
  by_cases hc : 65 ≤ c ∧ c ≤ 90
  · simp only [if_pos hc]
    omega
  · simp only [if_neg hc]
    omega

lemma gdb_hash_fold_cast (l : List Nat) :
    ∀ h : Nat, ((l.foldl gdb_hash_step h : Nat) : Int) = l.foldl gdb_hash_ref_step (h : Int) := by
  induction l with
  | nil => intro h; rfl
  | cons c rest ih =>
    intro h
    simp only [List.foldl_cons]
    rw [ih, gdb_hash_step_cast]

lemma lowerByte_idem (c : Nat) : lowerByte (lowerByte c) = lowerByte c := by
  unfold lowerByte
  by_cases hc : 65 ≤ c ∧ c ≤ 90
  · rw [if_pos hc, if_neg (by omega)]
  · rw [if_neg hc, if_neg hc]

/-! ## read_debug_range (src/elf/gdb-index.cc lines 257-270)

The source iterates over word-sized `(lo, hi)` pairs until both are zero.
`range[i] + 1 == 0` (word arithmetic) detects the all-ones base selector;
emitted sums `lo + base`, `hi + base` are computed in u64 (the operands
promote to `u64` because `base` is `u64`), hence wrap mod `2^64`.
`w` is the number of bits of `Word<E>` (32 or 64). -/

def read_debug_range (w : Nat) : List (Nat × Nat) → Nat → List (Nat × Nat)
  | [], _ => []
  | (lo, hi) :: rest, base =>
    if lo = 0 ∧ hi = 0 then []
    else if lo = 2 ^ w - 1 then read_debug_range w rest hi
    else ((lo + base) % 2 ^ 64, (hi + base) % 2 ^ 64) :: read_debug_range w rest base

/-! ## the post-extraction range filter (src/elf/gdb-index.cc lines 529-532)

`std::erase_if(ranges, [](p){ return p.first == 0 || p.first == p.second; })`
keeps exactly the pairs with `lo ≠ 0` and `lo ≠ hi`. -/

def filterRanges (rs : List (Nat × Nat)) : List (Nat × Nat) :=
  rs.filter fun p => !(p.1 == 0 || p.1 == p.2)

/-! ## hash table sizing (src/elf/gdb-index.cc line 629)

`i64 ht_size = bit_ceil(estimator.get_cardinality() * 5 / 4);`
`*` and `/` are integer operations, so the division is a floor. -/

/-- Modelled from the spec: `next_pow2` (the `bit_ceil` helper lives outside
the analysed sources); it returns the least power of two that is at least
its argument, and `1` on inputs `0` and `1`. -/
def clogTwoGo (n : Nat) : Nat → Nat → Nat
  | 0, k => k
  | fuel + 1, k => if n ≤ 2 ^ k then k else clogTwoGo n fuel (k + 1)

def bit_ceil (n : Nat) : Nat := 2 ^ clogTwoGo n n 0

/-- the on-disk hash table slot count, as a function of the estimated
cardinality (src line 629). -/
def gdb_ht_size (cardinality : Nat) : Nat := bit_ceil (cardinality * 5 / 4)

lemma clogTwoGo_le (n : Nat) :
    ∀ fuel k, n ≤ 2 ^ (k + fuel) → n ≤ 2 ^ clogTwoGo n fuel k := by
  intro fuel
  induction fuel with
  | zero => intro k h; simpa using h
  | succ fuel ih =>
    intro k h
    unfold clogTwoGo
    by_cases hk : n ≤ 2 ^ k
    · simp [hk]
    · simp only [hk, if_false, reduceIte]
      exact ih (k + 1) (by rw [Nat.add_right_comm]; exact h)

lemma le_bit_ceil (n : Nat) : n ≤ bit_ceil n := by
  unfold bit_ceil
  exact clogTwoGo_le n n 0 (by simpa using (Nat.lt_two_pow n).le)

/-! ## Theorems for claims C1, C2, C4, C6 -/

/-- C4: `gdb_hash` coincides with the reference fold of the spec
(`h ← h*67 + (lowered byte) − 113 (mod 2^32)` over the integers), it is
case-insensitive for ASCII letters (lowering every byte of the input does
not change the hash), and in particular
`gdb_hash "Foo" = gdb_hash "foo" = gdb_hash "FOO"`. -/
theorem gdb_hash_matches_ref_and_case_insensitive (s : List Nat) :
    ((gdb_hash s : Nat) : Int) = gdb_hash_ref s ∧
    gdb_hash (s.map lowerByte) = gdb_hash s ∧
    gdb_hash [70, 111, 111] = gdb_hash [102, 111, 111] ∧
    gdb_hash [102, 111, 111] = gdb_hash [70, 79, 79] := by
  refine ⟨?_, ?_, by decide, by decide⟩
  · exact gdb_hash_fold_cast s 0
  · unfold gdb_hash
    rw [List.foldl_map]
    have hfun : (fun (x : Nat) (y : Nat) => gdb_hash_step x (lowerByte y)) = gdb_hash_step := by
      funext h c
      unfold gdb_hash_step
      rw [lowerByte_idem]
    rw [hfun]

/-- C6: `read_debug_range` stops at a `(0, 0)` pair, treats an all-ones
`lo` as a base selector (sets the base to `hi`, emits nothing), rebases
every other pair, and on the concrete DWARF 4 list
`[(0x10,0x20),(~0,0x1000),(0x0,0x8),(0,0)]` with base `0x100` produces
`[(0x110,0x120),(0x1000,0x1008)]`. -/
theorem read_debug_range_correct (w : Nat) (rest : List (Nat × Nat)) (base : Nat)
    (lo0 hi0 : Nat) (hterm : lo0 = 0 ∧ hi0 = 0)
    (lo1 hi1 : Nat) (hsel : lo1 = 2 ^ w - 1) (hne1 : ¬(lo1 = 0 ∧ hi1 = 0))
    (lo2 hi2 : Nat) (hns : lo2 ≠ 2 ^ w - 1) (hne2 : ¬(lo2 = 0 ∧ hi2 = 0)) :
    read_debug_range w [] base = [] ∧
    read_debug_range w ((lo0, hi0) :: rest) base = [] ∧
    read_debug_range w ((lo1, hi1) :: rest) base = read_debug_range w rest hi1 ∧
    read_debug_range w ((lo2, hi2) :: rest) base =
      ((lo2 + base) % 2 ^ 64, (hi2 + base) % 2 ^ 64) :: read_debug_range w rest base ∧
    read_debug_range 64 [(0x10, 0x20), (2 ^ 64 - 1, 0x1000), (0x0, 0x8), (0, 0)] 0x100 =
      [(0x110, 0x120), (0x1000, 0x1008)] := by
  refine ⟨rfl, ?_, ?_, ?_, by decide⟩
  · obtain ⟨h1, h2⟩ := hterm
    subst h1; subst h2
    simp [read_debug_range]
  · subst hsel
    simp only [read_debug_range]
    rw [if_neg hne1]
    simp
  · simp only [read_debug_range]
    rw [if_neg hne2, if_neg hns]

theorem read_debug_range_correct_witness :
    read_debug_range 64 [] 7 = [] ∧
    read_debug_range 64 ((0, 0) :: [(3, 4)]) 7 = [] ∧
    read_debug_range 64 ((2 ^ 64 - 1, 9) :: [(3, 4)]) 7 = read_debug_range 64 [(3, 4)] 9 ∧
    read_debug_range 64 ((5, 6) :: [(3, 4)]) 7 =
      ((5 + 7) % 2 ^ 64, (6 + 7) % 2 ^ 64) :: read_debug_range 64 [(3, 4)] 7 ∧
    read_debug_range 64 [(0x10, 0x20), (2 ^ 64 - 1, 0x1000), (0x0, 0x8), (0, 0)] 0x100 =
      [(0x110, 0x120), (0x1000, 0x1008)] :=
  read_debug_range_correct 64 [(3, 4)] 7 0 0 (by decide) (2 ^ 64 - 1) 9 rfl (by decide)
    5 6 (by decide) (by decide)

/-- C1 (counterexample): the post-extraction filter only drops pairs with
`lo = 0` or `lo = hi`; a reversed pair `(0x20, 0x10)` produced by
`read_debug_range` on a concrete `.debug_ranges` payload survives it, so
the surviving pairs need not satisfy `lo < hi`. -/
theorem filterRanges_lt_cex :
    (0x20, 0x10) ∈ filterRanges (read_debug_range 64 [(0x20, 0x10), (0, 0)] 0) ∧
    ¬((0x20 : Nat) < 0x10) := by
  decide

/-- C1 (amended): every pair surviving the post-extraction filter of
`read_compunits` satisfies `lo ≠ 0` and `lo ≠ hi` (not necessarily
`lo < hi`). -/
theorem filterRanges_sound (rs : List (Nat × Nat)) (p : Nat × Nat)
    (hp : p ∈ filterRanges rs) : p.1 ≠ 0 ∧ p.1 ≠ p.2 := by
  unfold filterRanges at hp
  have := List.of_mem_filter hp
  simp only [Bool.not_eq_eq_eq_not, Bool.not_true, Bool.or_eq_false_iff, beq_eq_false_iff_ne,
    ne_eq] at this
  exact this

theorem filterRanges_sound_witness :
    ((1, 2) ∈ filterRanges [(1, 2)]) ∧ ((1 : Nat), (2 : Nat)).1 ≠ 0 ∧ ((1 : Nat), (2 : Nat)).1 ≠ ((1 : Nat), (2 : Nat)).2 :=
  ⟨by decide, filterRanges_sound [(1, 2)] (1, 2) (by decide)⟩

/-- C2 (counterexample): the slot count is computed with a floor division,
`bit_ceil(N * 5 / 4)`; at `N = 7` this yields `8`, which is smaller than
`ceil(7 * 5 / 4) = 9`, and also differs from `next_pow2(ceil(7*5/4)) = 16`. -/
theorem ht_size_ceil_cex :
    gdb_ht_size 7 = 8 ∧ (7 * 5 + 3) / 4 = 9 ∧
    gdb_ht_size 7 < (7 * 5 + 3) / 4 ∧ gdb_ht_size 7 ≠ bit_ceil ((7 * 5 + 3) / 4) := by
  refine ⟨by decide, by decide, by decide, by decide⟩

/-- C2 (amended): the slot count is `next_pow2(floor(N * 5 / 4))`, where `N`
is the HyperLogLog cardinality estimate: it is a power of two and at least
`floor(N * 5 / 4)`. -/
theorem ht_size_pow2_ge_floor (cardinality : Nat) :
    (∃ k, gdb_ht_size cardinality = 2 ^ k) ∧
    cardinality * 5 / 4 ≤ gdb_ht_size cardinality :=
  ⟨⟨clogTwoGo (cardinality * 5 / 4) (cardinality * 5 / 4) 0, rfl⟩,
    le_bit_ceil (cardinality * 5 / 4)⟩

/-! ## the on-disk symbol hash table (src/elf/gdb-index.cc lines 671-685)

Each slot is a pair of u32s `(name_offset, type_offset)`; a slot is
occupied when either u32 is non-zero. Entries are inserted by double
hashing: start at `hash & mask`, step `(hash & mask) | 1`, advance
`j = (j + step) & mask` past occupied slots. The source loop has no fuel;
we bound the probe count by the table length (enough whenever a free slot
exists, since the step is odd and the size a power of two) and leave the
table unchanged otherwise, which only makes the occupied-slot invariant
easier to violate, never easier to satisfy. -/

structure SymEntry where
  name : List Nat
  hash : Nat
  name_offset : Nat
  type_offset : Nat
deriving DecidableEq

def slotFree (s : Nat × Nat) : Bool := s.1 == 0 && s.2 == 0

def probeStart (hash mask : Nat) : Nat := hash &&& mask

def probeStep (hash mask : Nat) : Nat := (hash &&& mask) ||| 1

/-- position reached after `k` probe advances for a given hash. -/
def probeAt (hash mask : Nat) : Nat → Nat
  | 0 => probeStart hash mask
  | k + 1 => (probeAt hash mask k + probeStep hash mask) &&& mask

/-- the probing loop of the source, with explicit fuel. -/
def findSlot (tbl : List (Nat × Nat)) (step mask : Nat) : Nat → Nat → Option Nat
  | 0, j => if slotFree (tbl.getD j (0, 0)) then some j else none
  | fuel + 1, j =>
    if slotFree (tbl.getD j (0, 0)) then some j
    else findSlot tbl step mask fuel ((j + step) &&& mask)

/-- insertion of one entry, writing `(name_offset, type_offset)` into the
first free slot of its probe sequence. -/
def insertSym (tbl : List (Nat × Nat)) (e : SymEntry) : List (Nat × Nat) :=
  let mask := tbl.length - 1
  match findSlot tbl (probeStep e.hash mask) mask tbl.length (probeStart e.hash mask) with
  | some j => tbl.set j (e.name_offset, e.type_offset)
  | none => tbl

/-- the symbol-table write loop: a table of `n` zeroed slots filled by
inserting every entry in order. -/
def buildSymtab (n : Nat) (entries : List SymEntry) : List (Nat × Nat) :=
  entries.foldl insertSym (List.replicate n (0, 0))

lemma findSlot_probe (tbl : List (Nat × Nat)) (h mask : Nat) :
    ∀ fuel k j, findSlot tbl (probeStep h mask) mask fuel (probeAt h mask k) = some j →
      slotFree (tbl.getD j (0, 0)) = true ∧ ∃ i, probeAt h mask i = j := by
  intro fuel
  induction fuel with
  | zero =>
    intro k j hfind
    unfold findSlot at hfind
    by_cases hfree : slotFree (tbl.getD (probeAt h mask k) (0, 0)) = true
    · rw [if_pos hfree] at hfind
      cases hfind
      exact ⟨hfree, k, rfl⟩
    · rw [if_neg hfree] at hfind
      cases hfind
  | succ fuel ih =>
    intro k j hfind
    unfold findSlot at hfind
    by_cases hfree : slotFree (tbl.getD (probeAt h mask k) (0, 0)) = true
    · rw [if_pos hfree] at hfind
      cases hfind
      exact ⟨hfree, k, rfl⟩
    · rw [if_neg hfree] at hfind
      exact ih (k + 1) j hfind

lemma insertSym_length (tbl : List (Nat × Nat)) (e : SymEntry) :
    (insertSym tbl e).length = tbl.length := by
  unfold insertSym
  cases hfind : findSlot tbl (probeStep e.hash (tbl.length - 1)) (tbl.length - 1)
      tbl.length (probeStart e.hash (tbl.length - 1)) with
  | none => simp [hfind]
  | some j => simp [hfind]

lemma foldl_insertSym_length (l : List SymEntry) :
    ∀ tbl : List (Nat × Nat), (l.foldl insertSym tbl).length = tbl.length := by
  induction l with
  | nil => intro tbl; rfl
  | cons e rest ih =>
    intro tbl
    simp only [List.foldl_cons]
    rw [ih, insertSym_length]

/-- invariant of the table under insertion: every occupied slot holds the
payload of some already-inserted entry whose probe sequence reaches it. -/
def GoodTbl (P : SymEntry → Prop) (tbl : List (Nat × Nat)) : Prop :=
  ∀ j, j < tbl.length → slotFree (tbl.getD j (0, 0)) = false →
    ∃ e, P e ∧ tbl.getD j (0, 0) = (e.name_offset, e.type_offset) ∧
      ∃ k, probeAt e.hash (tbl.length - 1) k = j

lemma insertSym_good (P : SymEntry → Prop) (tbl : List (Nat × Nat)) (e : SymEntry)
    (hg : GoodTbl P tbl) (he : P e) : GoodTbl P (insertSym tbl e) := by
  unfold insertSym
  cases hfind : findSlot tbl (probeStep e.hash (tbl.length - 1)) (tbl.length - 1)
      tbl.length (probeStart e.hash (tbl.length - 1)) with
  | none => simpa [hfind] using hg
  | some j0 =>
    simp only [hfind]
    have hprobe := findSlot_probe tbl e.hash (tbl.length - 1) tbl.length 0 j0 hfind
    intro j hj hocc
    rw [List.length_set] at hj
    rw [List.getD_eq_getElem?_getD] at hocc ⊢
    by_cases hjj : j = j0
    · subst hjj
      rw [List.getElem?_set_self hj]
      refine ⟨e, he, rfl, ?_⟩
      simp only [List.length_set]
      exact hprobe.2
    · rw [List.getElem?_set_ne (fun hh => hjj hh.symm)] at hocc ⊢
      obtain ⟨e', he', hcontent, k, hk⟩ := hg j hj (by rw [List.getD_eq_getElem?_getD] at *; exact hocc)
      rw [List.getD_eq_getElem?_getD] at hcontent
      exact ⟨e', he', hcontent, ⟨k, by simpa [List.length_set] using hk⟩⟩

lemma foldl_insertSym_good (P : SymEntry → Prop) (l : List SymEntry) :
    ∀ tbl : List (Nat × Nat), GoodTbl P tbl → (∀ e ∈ l, P e) →
      GoodTbl P (l.foldl insertSym tbl) := by
  induction l with
  | nil => intro tbl hg _; exact hg
  | cons e rest ih =>
    intro tbl hg hall
    simp only [List.foldl_cons]
    exact ih (insertSym tbl e) (insertSym_good P tbl e hg (hall e (List.mem_cons_self e rest)))
      (fun e' he' => hall e' (List.mem_cons_of_mem e he'))

lemma replicate_good (P : SymEntry → Prop) (n : Nat) :
    GoodTbl P (List.replicate n (0, 0)) := by
  intro j hj hocc
  rw [List.getD_eq_getElem?_getD, List.getElem?_replicate] at hocc
  rw [List.length_replicate] at hj
  simp [hj, slotFree] at hocc

/-- C3: in the emitted symbol hash table, every occupied slot (a slot with
either u32 non-zero) holds the `(name_offset, type_offset)` payload of one
of the inserted entries, and that entry's probe sequence — start
`hash & (ht_size-1)`, step `(hash & (ht_size-1)) | 1`, advance
`j = (j + step) & (ht_size-1)` — reaches exactly this slot; since every
entry's stored hash is `gdb_hash` of its name, re-hashing the name stored
at the occupied slot yields the hash whose probe sequence reached it. -/
theorem symtab_probe_sound (n : Nat) (entries : List SymEntry)
    (hh : ∀ e ∈ entries, e.hash = gdb_hash e.name) (j : Nat) (hj : j < n)
    (hocc : slotFree ((buildSymtab n entries).getD j (0, 0)) = false) :
    ∃ e ∈ entries, (buildSymtab n entries).getD j (0, 0) = (e.name_offset, e.type_offset) ∧
      ∃ k, probeAt (gdb_hash e.name) (n - 1) k = j := by
  have hlen : (List.foldl insertSym (List.replicate n (0, 0)) entries).length = n := by
    rw [foldl_insertSym_length, List.length_replicate]
  have hg := foldl_insertSym_good (· ∈ entries) entries (List.replicate n (0, 0))
    (replicate_good _ n) (fun _ he => he)
  obtain ⟨e, he, hcontent, k, hk⟩ := hg j (by rw [hlen]; exact hj) hocc
  refine ⟨e, he, hcontent, k, ?_⟩
  rw [hlen] at hk
  rw [← hh e he]
  exact hk

theorem symtab_probe_sound_witness :
    ∃ e ∈ [SymEntry.mk [102, 111, 111] (gdb_hash [102, 111, 111]) 1 0],
      (buildSymtab 2 [SymEntry.mk [102, 111, 111] (gdb_hash [102, 111, 111]) 1 0]).getD 1 (0, 0) =
        (e.name_offset, e.type_offset) ∧
      ∃ k, probeAt (gdb_hash e.name) (2 - 1) k = 1 :=
  symtab_probe_sound 2 [SymEntry.mk [102, 111, 111] (gdb_hash [102, 111, 111]) 1 0]
    (by decide) 1 (by decide) (by decide)

/-! ## DWARF attribute forms

The numeric DW_FORM codes live in a header outside the analysed sources,
so the forms that `read_address_ranges` distinguishes are embedded as an
inductive type; `other` stands for every remaining form code. -/

inductive Form where
  | addr
  | addrx
  | addrx1
  | addrx2
  | addrx3
  | addrx4
  | udata
  | data1
  | data2
  | data4
  | data8
  | sec_offset
  | other
deriving DecidableEq

/-! ## ULEB128 and little-endian primitives -/

/-- Modelled from the spec: `read_uleb` (the helper lives outside the
analysed sources) decodes a variable-length base-128 unsigned integer and
returns it together with the remaining bytes. -/
def read_uleb : List Nat → Nat × List Nat
  | [] => (0, [])
  | c :: rest =>
    if c < 128 then (c, rest)
    else
      let p := read_uleb rest
      (c - 128 + 128 * p.1, p.2)

/-- little-endian value of a byte list. -/
def leVal : List Nat → Nat
  | [] => 0
  | b :: r => b + 256 * leVal r

/-- little-endian value of the first `ws` bytes (`ws` = word size in bytes). -/
def leWord (ws : Nat) (buf : List Nat) : Nat := leVal (buf.take ws)

/-- little-endian u32 at byte offset `pos` of a buffer. -/
def readU32LE (buf : List Nat) (pos : Nat) : Nat := leVal ((buf.drop pos).take 4)

/-! ## read_rnglist_range (src/elf/gdb-index.cc lines 272-322)

stream decoder over .debug_rnglists entries, keyed by the leading entry
byte (DW_RLE codes 0 through 7). The switch of the source has no default
case, so an unknown entry byte falls through the switch: only the byte
itself is consumed and decoding continues. Emitted addresses are u64, so
sums wrap mod 2^64. The source loop carries no fuel and relies on an
end_of_list byte; we bound the iteration count by the buffer length,
which each iteration decreases by at least one byte. -/

def read_rnglist_go (ws : Nat) (addrx : List Nat) : Nat → List Nat → Nat → List (Nat × Nat)
  | 0, _, _ => []
  | _ + 1, [], _ => []
  | fuel + 1, k :: rest, base =>
    if k = 0 then []
    else if k = 1 then
      let p := read_uleb rest
      read_rnglist_go ws addrx fuel p.2 (addrx.getD p.1 0)
    else if k = 2 then
      let p := read_uleb rest
      let q := read_uleb p.2
      (addrx.getD p.1 0, addrx.getD q.1 0) :: read_rnglist_go ws addrx fuel q.2 base
    else if k = 3 then
      let p := read_uleb rest
      let q := read_uleb p.2
      (addrx.getD p.1 0, (addrx.getD p.1 0 + q.1) % 2 ^ 64) ::
        read_rnglist_go ws addrx fuel q.2 base
    else if k = 4 then
      let p := read_uleb rest
      let q := read_uleb p.2
      ((base + p.1) % 2 ^ 64, (base + q.1) % 2 ^ 64) :: read_rnglist_go ws addrx fuel q.2 base
    else if k = 5 then
      read_rnglist_go ws addrx fuel (rest.drop ws) (leWord ws rest)
    else if k = 6 then
      (leWord ws rest, leWord ws (rest.drop ws)) ::
        read_rnglist_go ws addrx fuel (rest.drop (2 * ws)) base
    else if k = 7 then
      let v := leWord ws rest
      let p := read_uleb (rest.drop ws)
      (v, (v + p.1) % 2 ^ 64) :: read_rnglist_go ws addrx fuel p.2 base
    else
      read_rnglist_go ws addrx fuel rest base

def read_rnglist_range (ws : Nat) (addrx : List Nat) (rnglist : List Nat) (base : Nat) :
    List (Nat × Nat) :=
  read_rnglist_go ws addrx rnglist.length rnglist base

/-! ## the contiguous-range branch of read_address_ranges
(src/elf/gdb-index.cc lines 411-448)

When no ranges attribute is present but both low_pc and high_pc are, a
single pair is formed. The switches on the forms handle `addr`,
`addrx`, `addrx1`, `addrx2`, `addrx4` for both attributes (note: not
`addrx3`) plus the data-length forms for high_pc; everything else is
fatal. -/

def resolveLow (addrx : List Nat) (low : Form × Nat) : Except String Nat :=
  match low.1 with
  | .addr => .ok low.2
  | .addrx | .addrx1 | .addrx2 | .addrx4 => .ok (addrx.getD low.2 0)
  | _ => .error "--gdb-index: unhandled form for DW_AT_low_pc"

def read_contiguous_range (addrx : List Nat) (low high : Form × Nat) :
    Except String (List (Nat × Nat)) :=
  match resolveLow addrx low with
  | .error e => .error e
  | .ok lo =>
    match high.1 with
    | .addr => .ok [(lo, high.2)]
    | .addrx | .addrx1 | .addrx2 | .addrx4 => .ok [(lo, addrx.getD high.2 0)]
    | .udata | .data1 | .data2 | .data4 | .data8 => .ok [(lo, (lo + high.2) % 2 ^ 64)]
    | _ => .error "--gdb-index: unhandled form for DW_AT_high_pc"

/-! ## the DWARF 5 ranges dispatch of read_address_ranges
(src/elf/gdb-index.cc lines 392-408)

With a ranges attribute of form `sec_offset` a single range list at
`debug_rnglists + value` is decoded. With any other form the source
requires a previously seen DW_AT_rnglists_base (fatal otherwise; the
source encodes absence by the u64 sentinel `-1`, embedded here as an
`Option`), reads `num_offsets` as the LE u32 four bytes before
`debug_rnglists + rnglists_base`, and decodes the list at
`base + offsets[i]` for each LE u32 `offsets[i]` in the flat array
starting at the base. -/

def dwarf5_list_ranges (ws : Nat) (rnglists addrx : List Nat) (low : Nat)
    (form : Form) (value : Nat) (rnglists_base : Option Nat) :
    Except String (List (Nat × Nat)) :=
  if form = Form.sec_offset then
    Except.ok (read_rnglist_range ws addrx (rnglists.drop value) low)
  else
    match rnglists_base with
    | none => Except.error "--gdb-index: missing DW_AT_rnglists_base"
    | some b =>
      Except.ok ((List.range (readU32LE rnglists (b - 4))).flatMap fun i =>
        read_rnglist_range ws addrx (rnglists.drop (b + readU32LE rnglists (b + 4 * i))) low)

/-! ## Theorems for claims C5, C8, C10 -/

/-- C5 (counterexample): an `addrx3` form on either DW_AT_low_pc or
DW_AT_high_pc is fatal — the switches at lines 415-428 and 430-447 list
`addrx`, `addrx1`, `addrx2`, `addrx4` but not `addrx3` — contradicting
the claim that every addrx* form is resolved through the addrx table. -/
theorem contiguous_addrx3_cex :
    read_contiguous_range [7] (Form.addrx3, 0) (Form.addr, 5) =
      Except.error "--gdb-index: unhandled form for DW_AT_low_pc" ∧
    read_contiguous_range [7] (Form.addr, 5) (Form.addrx3, 0) =
      Except.error "--gdb-index: unhandled form for DW_AT_high_pc" :=
  ⟨rfl, rfl⟩

/-- C5 (amended): with no ranges attribute and both low_pc and high_pc
present, exactly one pair (lo, hi) is returned; lo is low_pc.value for
form addr and addrx[low_pc.value] for forms addrx, addrx1, addrx2,
addrx4; hi is high_pc.value for form addr, addrx[high_pc.value] for forms
addrx, addrx1, addrx2, addrx4, and lo + high_pc.value (u64) for forms
udata, data1, data2, data4, data8; `addrx3` and every other form of
either attribute is fatal. -/
theorem contiguous_range_amended (A : List Nat) (lv hv : Nat) (lfx hfx dfx : Form)
    (hlf : lfx = Form.addrx ∨ lfx = Form.addrx1 ∨ lfx = Form.addrx2 ∨ lfx = Form.addrx4)
    (hhf : hfx = Form.addrx ∨ hfx = Form.addrx1 ∨ hfx = Form.addrx2 ∨ hfx = Form.addrx4)
    (hdf : dfx = Form.udata ∨ dfx = Form.data1 ∨ dfx = Form.data2 ∨ dfx = Form.data4 ∨
      dfx = Form.data8) :
    read_contiguous_range A (Form.addr, lv) (Form.addr, hv) = Except.ok [(lv, hv)] ∧
    read_contiguous_range A (lfx, lv) (Form.addr, hv) = Except.ok [(A.getD lv 0, hv)] ∧
    read_contiguous_range A (Form.addr, lv) (hfx, hv) = Except.ok [(lv, A.getD hv 0)] ∧
    read_contiguous_range A (lfx, lv) (hfx, hv) = Except.ok [(A.getD lv 0, A.getD hv 0)] ∧
    read_contiguous_range A (Form.addr, lv) (dfx, hv) =
      Except.ok [(lv, (lv + hv) % 2 ^ 64)] ∧
    read_contiguous_range A (Form.addrx3, lv) (Form.addr, hv) =
      Except.error "--gdb-index: unhandled form for DW_AT_low_pc" ∧
    read_contiguous_range A (Form.addr, lv) (Form.addrx3, hv) =
      Except.error "--gdb-index: unhandled form for DW_AT_high_pc" ∧
    read_contiguous_range A (Form.other, lv) (Form.addr, hv) =
      Except.error "--gdb-index: unhandled form for DW_AT_low_pc" ∧
    read_contiguous_range A (Form.addr, lv) (Form.other, hv) =
      Except.error "--gdb-index: unhandled form for DW_AT_high_pc" := by
  rcases hlf with rfl | rfl | rfl | rfl <;>
    rcases hhf with rfl | rfl | rfl | rfl <;>
      rcases hdf with rfl | rfl | rfl | rfl | rfl <;>
        exact ⟨rfl, rfl, rfl, rfl, rfl, rfl, rfl, rfl, rfl⟩

theorem contiguous_range_amended_witness :
    read_contiguous_range [7] (Form.addr, 3) (Form.addr, 4) = Except.ok [(3, 4)] ∧
    read_contiguous_range [7] (Form.addrx, 3) (Form.addr, 4) =
      Except.ok [(List.getD [7] 3 0, 4)] ∧
    read_contiguous_range [7] (Form.addr, 3) (Form.addrx1, 4) =
      Except.ok [(3, List.getD [7] 4 0)] ∧
    read_contiguous_range [7] (Form.addrx, 3) (Form.addrx1, 4) =
      Except.ok [(List.getD [7] 3 0, List.getD [7] 4 0)] ∧
    read_contiguous_range [7] (Form.addr, 3) (Form.udata, 4) =
      Except.ok [(3, (3 + 4) % 2 ^ 64)] ∧
    read_contiguous_range [7] (Form.addrx3, 3) (Form.addr, 4) =
      Except.error "--gdb-index: unhandled form for DW_AT_low_pc" ∧
    read_contiguous_range [7] (Form.addr, 3) (Form.addrx3, 4) =
      Except.error "--gdb-index: unhandled form for DW_AT_high_pc" ∧
    read_contiguous_range [7] (Form.other, 3) (Form.addr, 4) =
      Except.error "--gdb-index: unhandled form for DW_AT_low_pc" ∧
    read_contiguous_range [7] (Form.addr, 3) (Form.other, 4) =
      Except.error "--gdb-index: unhandled form for DW_AT_high_pc" :=
  contiguous_range_amended [7] 3 4 Form.addrx Form.addrx1 Form.udata
    (Or.inl rfl) (Or.inr (Or.inl rfl)) (Or.inl rfl)

/-- C8: for a DWARF 5 ranges attribute whose form is not sec_offset,
range extraction is fatal when no rnglists_base was seen; otherwise it
reads num_offsets as the LE u32 four bytes before
debug_rnglists + rnglists_base and decodes, for each i below num_offsets,
the range list at base + offsets[i], where offsets is the flat array of
LE u32s at the base. -/
theorem dwarf5_rnglists_dispatch (ws : Nat) (rnglists addrx : List Nat) (low : Nat)
    (form : Form) (value b : Nat) (hform : form ≠ Form.sec_offset) :
    dwarf5_list_ranges ws rnglists addrx low form value none =
      Except.error "--gdb-index: missing DW_AT_rnglists_base" ∧
    dwarf5_list_ranges ws rnglists addrx low form value (some b) =
      Except.ok ((List.range (readU32LE rnglists (b - 4))).flatMap fun i =>
        read_rnglist_range ws addrx (rnglists.drop (b + readU32LE rnglists (b + 4 * i))) low) := by
  constructor <;> (unfold dwarf5_list_ranges; rw [if_neg hform])

theorem dwarf5_rnglists_dispatch_witness :
    dwarf5_list_ranges 8 [0, 0, 0, 0, 1, 0, 0, 0, 4, 0, 0, 0] [] 0 Form.other 0 none =
      Except.error "--gdb-index: missing DW_AT_rnglists_base" ∧
    dwarf5_list_ranges 8 [0, 0, 0, 0, 1, 0, 0, 0, 4, 0, 0, 0] [] 0 Form.other 0 (some 8) =
      Except.ok
        ((List.range (readU32LE [0, 0, 0, 0, 1, 0, 0, 0, 4, 0, 0, 0] (8 - 4))).flatMap fun i =>
          read_rnglist_range 8 []
            (List.drop (8 + readU32LE [0, 0, 0, 0, 1, 0, 0, 0, 4, 0, 0, 0] (8 + 4 * i))
              [0, 0, 0, 0, 1, 0, 0, 0, 4, 0, 0, 0]) 0) :=
  dwarf5_rnglists_dispatch 8 [0, 0, 0, 0, 1, 0, 0, 0, 4, 0, 0, 0] [] 0 Form.other 0 8
    (by decide)

/-- C10: in the rnglist decoder an entry byte that is not one of the
eight DW_RLE kinds (codes 0 through 7) is not fatal and does not stop
decoding: the byte is consumed, no payload is skipped, and the next byte
is interpreted as the next entry kind. -/
theorem rnglist_unknown_entry_skipped (ws : Nat) (addrx : List Nat) (k : Nat)
    (rest : List Nat) (base : Nat) (hk : 8 ≤ k) :
    read_rnglist_range ws addrx (k :: rest) base = read_rnglist_range ws addrx rest base := by
  unfold read_rnglist_range
  simp only [List.length_cons]
  simp only [read_rnglist_go]
  have h0 : ¬(k = 0) := by omega
  have h1 : ¬(k = 1) := by omega
  have h2 : ¬(k = 2) := by omega
  have h3 : ¬(k = 3) := by omega
  have h4 : ¬(k = 4) := by omega
  have h5 : ¬(k = 5) := by omega
  have h6 : ¬(k = 6) := by omega
  have h7 : ¬(k = 7) := by omega
  rw [if_neg h0, if_neg h1, if_neg h2, if_neg h3, if_neg h4, if_neg h5, if_neg h6, if_neg h7]

theorem rnglist_unknown_entry_skipped_witness :
    read_rnglist_range 8 [] (99 :: [6, 16, 0, 0, 0, 0, 0, 0, 0, 32, 0, 0, 0, 0, 0, 0, 0, 0]) 0 =
      read_rnglist_range 8 [] [6, 16, 0, 0, 0, 0, 0, 0, 0, 32, 0, 0, 0, 0, 0, 0, 0, 0] 0 :=
  rnglist_unknown_entry_skipped 8 [] 99 [6, 16, 0, 0, 0, 0, 0, 0, 0, 32, 0, 0, 0, 0, 0, 0, 0, 0]
    0 (by decide)

/-! ## the symbol deduplication map (src/elf/gdb-index.cc lines 592-617)

`ConcurrentMap` lives outside the analysed sources; the spec describes it
as a concurrent map keyed by `(name, hash)` returning a stable handle per
key, whose `count` the caller increments once per inserted tuple. -/

structure NameType where
  name : List Nat
  hash : Nat
  type : Nat
deriving DecidableEq

def keyOf (nt : NameType) : List Nat × Nat := (nt.name, nt.hash)

/-- state of the deduplication map: one `(key, count)` entry per distinct
`(name, hash)` key. -/
abbrev MapState := List ((List Nat × Nat) × Nat)

/-- first-match lookup of the count stored for a key. -/
def lk : MapState → (List Nat × Nat) → Option Nat
  | [], _ => none
  | e :: rest, k => if e.1 = k then some e.2 else lk rest k

/-- increment of the count of the first entry with the given key. -/
def bumpCount (k : List Nat × Nat) : MapState → MapState
  | [] => []
  | e :: rest => if e.1 = k then (e.1, e.2 + 1) :: rest else e :: bumpCount k rest

/-- Modelled from the spec: one `map.insert` followed by the caller's
`ent->count++` — an existing entry for the key has its count bumped, a
fresh key is inserted with count 1 (the map value starts at count 0 and
is immediately incremented). -/
def mapInsert (m : MapState) (k : List Nat × Nat) : MapState :=
  match lk m k with
  | some _ => bumpCount k m
  | none => (k, 1) :: m

/-- the whole insertion phase, for one interleaving of the parallel
per-tuple insertions. -/
def insertList (l : List (List Nat × Nat)) (m : MapState) : MapState := l.foldl mapInsert m

def sumCounts (m : MapState) : Nat := (m.map fun e => e.2).sum

/-- the handles recorded by one CU, positionally parallel to its
nametypes (each handle carries the tuple's `(name, hash)`). -/
def cuKeys (cu : List NameType) : List (List Nat × Nat) := cu.map keyOf

/-- all insertions performed across all CUs, in one canonical order. -/
def allKeys (cus : List (List NameType)) : List (List Nat × Nat) := cus.flatMap cuKeys

lemma sumCounts_bump (m : MapState) (k : List Nat × Nat) (c : Nat) (h : lk m k = some c) :
    sumCounts (bumpCount k m) = sumCounts m + 1 := by
  induction m generalizing c with
  | nil => cases h
  | cons e rest ih =>
    unfold lk at h
    unfold bumpCount
    by_cases he : e.1 = k
    · rw [if_pos he] at h ⊢
      simp [sumCounts]
      omega
    · rw [if_neg he] at h ⊢
      simp only [sumCounts, List.map_cons, List.sum_cons] at *
      rw [ih c h]
      omega

lemma sumCounts_mapInsert (m : MapState) (k : List Nat × Nat) :
    sumCounts (mapInsert m k) = sumCounts m + 1 := by
  unfold mapInsert
  cases h : lk m k with
  | none => simp [sumCounts]; omega
  | some c => exact sumCounts_bump m k c h

lemma sumCounts_insertList (l : List (List Nat × Nat)) :
    ∀ m : MapState, sumCounts (insertList l m) = sumCounts m + l.length := by
  induction l with
  | nil => intro m; simp [insertList]
  | cons a l ih =>
    intro m
    show sumCounts (insertList l (mapInsert m a)) = _
    rw [ih, sumCounts_mapInsert]
    simp only [List.length_cons]
    omega

lemma allKeys_length (cus : List (List NameType)) :
    (allKeys cus).length = (cus.map List.length).sum := by
  induction cus with
  | nil => rfl
  | cons cu rest ih =>
    simp only [allKeys, List.flatMap_cons, List.length_append, List.map_cons, List.sum_cons]
    rw [← ih]
    simp [cuKeys, allKeys]

/-- C7: after the insertion phase the sum of `count` over all map entries
equals the total number of nametype tuples over all CUs, and each CU's
recorded handles are positionally parallel to its nametypes with matching
`(name, hash)`. -/
theorem map_counts_total (cus : List (List NameType)) (cu : List NameType)
    (_hcu : cu ∈ cus) (j : Nat) :
    sumCounts (insertList (allKeys cus) []) = (cus.map List.length).sum ∧
    (cuKeys cu).length = cu.length ∧
    (cuKeys cu).getD j ([], 0) = keyOf (cu.getD j (NameType.mk [] 0 0)) := by
  refine ⟨?_, List.length_map cu keyOf, ?_⟩
  · rw [sumCounts_insertList, allKeys_length]
    simp [sumCounts]
  · rw [List.getD_eq_getElem?_getD, List.getD_eq_getElem?_getD]
    unfold cuKeys
    rw [List.getElem?_map]
    cases h : cu[j]? with
    | none => rfl
    | some nt => rfl

theorem map_counts_total_witness :
    sumCounts (insertList (allKeys [[NameType.mk [1] 5 0]]) []) =
      (List.map List.length [[NameType.mk [1] 5 0]]).sum ∧
    (cuKeys [NameType.mk [1] 5 0]).length = [NameType.mk [1] 5 0].length ∧
    (cuKeys [NameType.mk [1] 5 0]).getD 0 ([], 0) =
      keyOf ([NameType.mk [1] 5 0].getD 0 (NameType.mk [] 0 0)) :=
  map_counts_total [[NameType.mk [1] 5 0]] [NameType.mk [1] 5 0] (by decide) 0

/-! ## schedule invariance of the deduplicated entry list

The only parallel phase whose interleaving could influence the emitted
bytes is the per-tuple insertion into the concurrent map; afterwards the
live entries are collected and sorted by `(hash, name)`
(src/elf/gdb-index.cc lines 607-617), and every later write loop is
sequential. We show the sorted entry list (keys and counts) is invariant
under permutation of the insertion sequence. -/

def keysOf (m : MapState) : List (List Nat × Nat) := m.map fun e => e.1

lemma lk_bump_self (k : List Nat × Nat) (m : MapState) :
    lk (bumpCount k m) k = (lk m k).map (· + 1) := by
  induction m with
  | nil => rfl
  | cons e rest ih =>
    unfold bumpCount lk
    by_cases he : e.1 = k
    · rw [if_pos he]
      simp [lk, he]
    · rw [if_neg he]
      simp only [lk, if_neg he]
      exact ih

lemma lk_bump_other (k k' : List Nat × Nat) (m : MapState) (hne : k' ≠ k) :
    lk (bumpCount k m) k' = lk m k' := by
  induction m with
  | nil => rfl
  | cons e rest ih =>
    unfold bumpCount lk
    by_cases he : e.1 = k
    · rw [if_pos he]
      have : ¬(e.1 = k') := by rw [he]; exact fun hh => hne hh.symm
      simp only [lk, if_neg this]
    · rw [if_neg he]
      by_cases he' : e.1 = k'
      · simp only [lk, if_pos he']
      · simp only [lk, if_neg he']
        exact ih

lemma lk_mapInsert_self (m : MapState) (k : List Nat × Nat) :
    lk (mapInsert m k) k = some ((lk m k).getD 0 + 1) := by
  unfold mapInsert
  cases h : lk m k with
  | none => simp [lk]
  | some c => rw [lk_bump_self, h]; rfl

lemma lk_mapInsert_other (m : MapState) (k k' : List Nat × Nat) (hne : k' ≠ k) :
    lk (mapInsert m k) k' = lk m k' := by
  unfold mapInsert
  cases h : lk m k with
  | none =>
    show (if k = k' then some 1 else lk m k') = lk m k'
    rw [if_neg fun hh => hne hh.symm]
  | some c => exact lk_bump_other k k' m hne

/-- number of occurrences of a key in the insertion sequence. -/
def countKey (k : List Nat × Nat) : List (List Nat × Nat) → Nat
  | [] => 0
  | a :: rest => (if a = k then 1 else 0) + countKey k rest

lemma countKey_perm (k : List Nat × Nat) (l1 l2 : List (List Nat × Nat)) (h : l1.Perm l2) :
    countKey k l1 = countKey k l2 := by
  induction h with
  | nil => rfl
  | cons a _ ih => simp only [countKey, ih]
  | swap a b l =>
    simp only [countKey]
    omega
  | trans _ _ ih1 ih2 => exact ih1.trans ih2

lemma countKey_cons_self (k : List Nat × Nat) (l : List (List Nat × Nat)) :
    countKey k (k :: l) = 1 + countKey k l := by
  simp [countKey]

lemma countKey_cons_other (a k : List Nat × Nat) (l : List (List Nat × Nat)) (hne : a ≠ k) :
    countKey k (a :: l) = countKey k l := by
  simp [countKey, hne]

lemma lk_insertList_some (l : List (List Nat × Nat)) :
    ∀ (m : MapState) (k : List Nat × Nat) (c : Nat), lk m k = some c →
      lk (insertList l m) k = some (c + countKey k l) := by
  induction l with
  | nil => intro m k c h; simpa [insertList, countKey] using h
  | cons a l ih =>
    intro m k c h
    show lk (insertList l (mapInsert m a)) k = some (c + countKey k (a :: l))
    by_cases hk : k = a
    · subst hk
      rw [countKey_cons_self, ih (mapInsert m k) k (c + 1) (by rw [lk_mapInsert_self, h]; rfl),
        ← Nat.add_assoc]
    · have hne : a ≠ k := fun hh => hk hh.symm
      rw [countKey_cons_other a k l hne,
        ih (mapInsert m a) k c (by rw [lk_mapInsert_other m a k hk]; exact h)]

lemma lk_insertList_none (l : List (List Nat × Nat)) :
    ∀ (m : MapState) (k : List Nat × Nat), lk m k = none →
      lk (insertList l m) k = if k ∈ l then some (countKey k l) else none := by
  induction l with
  | nil => intro m k h; simpa [insertList, countKey] using h
  | cons a l ih =>
    intro m k h
    show lk (insertList l (mapInsert m a)) k =
      if k ∈ a :: l then some (countKey k (a :: l)) else none
    by_cases hk : k = a
    · subst hk
      rw [if_pos (List.mem_cons_self k l), countKey_cons_self]
      exact lk_insertList_some l (mapInsert m k) k 1 (by rw [lk_mapInsert_self, h]; rfl)
    · have hne : a ≠ k := fun hh => hk hh.symm
      rw [countKey_cons_other a k l hne,
        ih (mapInsert m a) k (by rw [lk_mapInsert_other m a k hk]; exact h)]
      simp [List.mem_cons, hk]

lemma keysOf_bump (k : List Nat × Nat) (m : MapState) :
    keysOf (bumpCount k m) = keysOf m := by
  induction m with
  | nil => rfl
  | cons e rest ih =>
    unfold bumpCount
    by_cases he : e.1 = k
    · rw [if_pos he]
      simp [keysOf]
    · rw [if_neg he]
      simp only [keysOf, List.map_cons] at ih ⊢
      rw [ih]

lemma lk_eq_none_iff (m : MapState) (k : List Nat × Nat) :
    lk m k = none ↔ k ∉ keysOf m := by
  induction m with
  | nil => simp [lk, keysOf]
  | cons e rest ih =>
    unfold lk
    by_cases he : e.1 = k
    · simp [he, keysOf]
    · rw [if_neg he]
      simp only [keysOf, List.map_cons, List.mem_cons] at ih ⊢
      rw [ih]
      constructor
      · rintro hn (h1 | h2)
        · exact he h1.symm
        · exact hn h2
      · intro hn h2
        exact hn (Or.inr h2)

lemma mapInsert_keysNodup (m : MapState) (k : List Nat × Nat)
    (h : (keysOf m).Nodup) : (keysOf (mapInsert m k)).Nodup := by
  unfold mapInsert
  cases hl : lk m k with
  | some c => rw [keysOf_bump]; exact h
  | none =>
    have : keysOf ((k, 1) :: m) = k :: keysOf m := rfl
    rw [this, List.nodup_cons]
    exact ⟨(lk_eq_none_iff m k).mp hl, h⟩

lemma insertList_keysNodup (l : List (List Nat × Nat)) :
    ∀ m : MapState, (keysOf m).Nodup → (keysOf (insertList l m)).Nodup := by
  induction l with
  | nil => intro m h; exact h
  | cons a l ih =>
    intro m h
    exact ih (mapInsert m a) (mapInsert_keysNodup m a h)

lemma mem_iff_lk (m : MapState) (hnd : (keysOf m).Nodup) (k : List Nat × Nat) (c : Nat) :
    (k, c) ∈ m ↔ lk m k = some c := by
  induction m with
  | nil => simp [lk]
  | cons e rest ih =>
    have hnd' : (keysOf rest).Nodup ∧ e.1 ∉ keysOf rest := by
      have : keysOf (e :: rest) = e.1 :: keysOf rest := rfl
      rw [this, List.nodup_cons] at hnd
      exact ⟨hnd.2, hnd.1⟩
    unfold lk
    by_cases he : e.1 = k
    · rw [if_pos he]
      constructor
      · intro hmem
        rcases List.mem_cons.mp hmem with h1 | h2
        · rw [← h1, ← he]
        · exact absurd (he ▸ List.mem_map_of_mem (fun x => x.1) h2) hnd'.2
      · intro hsome
        have : c = e.2 := (Option.some_inj.mp hsome).symm
        subst this
        have : e = (k, e.2) := by
          rw [← he]
        rw [← this]
        exact List.mem_cons_self e rest
    · rw [if_neg he]
      constructor
      · intro hmem
        rcases List.mem_cons.mp hmem with h1 | h2
        · exact absurd (congrArg Prod.fst h1).symm he
        · exact (ih hnd'.1).mp h2
      · intro hsome
        exact List.mem_cons_of_mem e ((ih hnd'.1).mpr hsome)

lemma insertList_mem_iff (l : List (List Nat × Nat)) (k : List Nat × Nat) (c : Nat) :
    (k, c) ∈ insertList l [] ↔ (k ∈ l ∧ c = countKey k l) := by
  have hnd := insertList_keysNodup l [] (by simp [keysOf])
  rw [mem_iff_lk _ hnd, lk_insertList_none l [] k rfl]
  by_cases hm : k ∈ l
  · simp [hm, eq_comm]
  · simp [hm]

lemma insertList_perm (l1 l2 : List (List Nat × Nat)) (h : l1.Perm l2) :
    (insertList l1 []).Perm (insertList l2 []) := by
  have n1 : (insertList l1 []).Nodup := by
    have hk := insertList_keysNodup l1 [] (by simp [keysOf])
    unfold keysOf at hk
    exact List.Nodup.of_map _ hk
  have n2 : (insertList l2 []).Nodup := by
    have hk := insertList_keysNodup l2 [] (by simp [keysOf])
    unfold keysOf at hk
    exact List.Nodup.of_map _ hk
  rw [List.perm_ext_iff_of_nodup n1 n2]
  rintro ⟨k, c⟩
  rw [insertList_mem_iff, insertList_mem_iff, h.mem_iff, countKey_perm k l1 l2 h]

/-! ## the deterministic collection order (sort by hash, then name)

The source sorts the collected entries by `(hash, name)`; distinct
entries always have distinct keys, so adding the count as a final tie
break (needed for antisymmetry) never changes the order. -/

def entryLE (a b : (List Nat × Nat) × Nat) : Prop :=
  a.1.2 < b.1.2 ∨ (a.1.2 = b.1.2 ∧ (a.1.1 < b.1.1 ∨ (a.1.1 = b.1.1 ∧ a.2 ≤ b.2)))

instance entryLE_decidable : DecidableRel entryLE := fun a b => by
  unfold entryLE
  infer_instance

instance entryLE_total : IsTotal ((List Nat × Nat) × Nat) entryLE := by
  constructor
  intro a b
  unfold entryLE
  rcases lt_trichotomy a.1.2 b.1.2 with h | h | h
  · exact Or.inl (Or.inl h)
  · rcases lt_trichotomy a.1.1 b.1.1 with h' | h' | h'
    · exact Or.inl (Or.inr ⟨h, Or.inl h'⟩)
    · rcases Nat.le_total a.2 b.2 with h'' | h''
      · exact Or.inl (Or.inr ⟨h, Or.inr ⟨h', h''⟩⟩)
      · exact Or.inr (Or.inr ⟨h.symm, Or.inr ⟨h'.symm, h''⟩⟩)
    · exact Or.inr (Or.inr ⟨h.symm, Or.inl h'⟩)
  · exact Or.inr (Or.inl h)

instance entryLE_trans : IsTrans ((List Nat × Nat) × Nat) entryLE := by
  constructor
  intro a b c hab hbc
  unfold entryLE at hab hbc ⊢
  rcases hab with h1 | ⟨e1, h1⟩ <;> rcases hbc with h2 | ⟨e2, h2⟩
  · exact Or.inl (h1.trans h2)
  · exact Or.inl (lt_of_lt_of_le h1 (le_of_eq e2))
  · exact Or.inl (lt_of_le_of_lt (le_of_eq e1) h2)
  · refine Or.inr ⟨e1.trans e2, ?_⟩
    rcases h1 with n1 | ⟨f1, c1⟩ <;> rcases h2 with n2 | ⟨f2, c2⟩
    · exact Or.inl (n1.trans n2)
    · exact Or.inl (lt_of_lt_of_le n1 (le_of_eq f2))
    · exact Or.inl (lt_of_le_of_lt (le_of_eq f1) n2)
    · exact Or.inr ⟨f1.trans f2, c1.trans c2⟩

instance entryLE_antisymm : IsAntisymm ((List Nat × Nat) × Nat) entryLE := by
  constructor
  rintro ⟨⟨an, ah⟩, ac⟩ ⟨⟨bn, bh⟩, bc⟩ hab hba
  simp only [entryLE] at hab hba
  rcases hab with h1 | ⟨e1, h1⟩ <;> rcases hba with h2 | ⟨e2, h2⟩
  · exact absurd h2 (lt_asymm h1)
  · exact absurd e2 h1.ne'
  · exact absurd e1 h2.ne'
  · subst e1
    rcases h1 with n1 | ⟨f1, c1⟩ <;> rcases h2 with n2 | ⟨f2, c2⟩
    · exact absurd n2 (lt_asymm n1)
    · exact absurd f2 n1.ne'
    · exact absurd f1 n2.ne'
    · subst f1
      rw [le_antisymm c1 c2]

/-- collection of the live entries in the deterministic `(hash, name)`
order of src/elf/gdb-index.cc lines 615-617. -/
def sortEntries (m : MapState) : MapState := List.insertionSort entryLE m

/-! ## the type/CU-index pool write loop (src/elf/gdb-index.cc lines 687-697)

The loop is sequential: for each CU index `i` in order and each position
`j` of its nametypes in order, the word `(type << 24) | i` is appended to
the sub-array of the handle of `nametypes[j]`. `typeEmissionsFrom k`
records, in exactly this order, the `(cu_index, word)` pairs appended to
the sub-array of the entry with key `k`. -/

def typeWordsCU (k : List Nat × Nat) (i : Nat) (cu : List NameType) : List Nat :=
  cu.filterMap fun nt => if keyOf nt = k then some ((nt.type <<< 24) ||| i) else none

def typeEmissionsFrom (k : List Nat × Nat) : Nat → List (List NameType) → List (Nat × Nat)
  | _, [] => []
  | i, cu :: rest => ((typeWordsCU k i cu).map fun w => (i, w)) ++ typeEmissionsFrom k (i + 1) rest

def typeEmissions (cus : List (List NameType)) (k : List Nat × Nat) : List (Nat × Nat) :=
  typeEmissionsFrom k 0 cus

lemma typeEmissionsFrom_lb (k : List Nat × Nat) :
    ∀ (cus : List (List NameType)) (i : Nat) (x : Nat × Nat),
      x ∈ typeEmissionsFrom k i cus → i ≤ x.1 := by
  intro cus
  induction cus with
  | nil => intro i x hx; cases hx
  | cons cu rest ih =>
    intro i x hx
    rcases List.mem_append.mp hx with h1 | h2
    · obtain ⟨w, _, hw⟩ := List.mem_map.mp h1
      rw [← hw]
    · exact Nat.le_of_succ_le (ih (i + 1) x h2)

lemma pairwise_const_fst (i : Nat) (l : List Nat) :
    List.Pairwise (fun a b : Nat × Nat => a.1 ≤ b.1) (l.map fun w => (i, w)) := by
  rw [List.pairwise_map]
  induction l with
  | nil => exact List.Pairwise.nil
  | cons a l ih => exact List.Pairwise.cons (fun b _ => le_refl i) ih

lemma typeEmissionsFrom_pairwise (k : List Nat × Nat) :
    ∀ (cus : List (List NameType)) (i : Nat),
      List.Pairwise (fun a b : Nat × Nat => a.1 ≤ b.1) (typeEmissionsFrom k i cus) := by
  intro cus
  induction cus with
  | nil => intro i; exact List.Pairwise.nil
  | cons cu rest ih =>
    intro i
    rw [typeEmissionsFrom, List.pairwise_append]
    refine ⟨pairwise_const_fst i _, ih (i + 1), ?_⟩
    intro a ha b hb
    obtain ⟨w, _, hw⟩ := List.mem_map.mp ha
    have hbl := typeEmissionsFrom_lb k rest (i + 1) b hb
    rw [← hw]
    exact Nat.le_of_succ_le hbl

/-- C9 (counterexample): the type/CU-index pool is written by a
sequential loop, so with two CUs both contributing the symbol "foo" of
type 0x30 the sub-array holds `(0x30<<24)|0` then `(0x30<<24)|1` in that
fixed order — a function of the input alone, not a nondeterministic
outcome — and the deduplicated map holds the single entry with count 2. -/
theorem type_pool_order_cex :
    typeEmissions
      [[NameType.mk [102, 111, 111] (gdb_hash [102, 111, 111]) 48],
        [NameType.mk [102, 111, 111] (gdb_hash [102, 111, 111]) 48]]
      ([102, 111, 111], gdb_hash [102, 111, 111]) =
      [(0, 48 <<< 24 ||| 0), (1, 48 <<< 24 ||| 1)] ∧
    sortEntries (insertList
      [([102, 111, 111], gdb_hash [102, 111, 111]),
        ([102, 111, 111], gdb_hash [102, 111, 111])] []) =
      [(([102, 111, 111], gdb_hash [102, 111, 111]), 2)] := by
  constructor
  · decide
  · decide

/-- C9 (amended): the output is determined solely by the input: the
deduplicated entry list sorted by `(hash, name)`, with its per-entry
counts, is invariant under any reordering of the parallel per-tuple
insertions (the only schedule-dependent phase), and within each
per-symbol CU-index sub-array the words are appended by the sequential
write loop in ascending CU-index order. -/
theorem output_schedule_invariant (l1 l2 : List (List Nat × Nat)) (h : l1.Perm l2)
    (cus : List (List NameType)) (k : List Nat × Nat) :
    sortEntries (insertList l1 []) = sortEntries (insertList l2 []) ∧
    List.Pairwise (fun a b : Nat × Nat => a.1 ≤ b.1) (typeEmissions cus k) := by
  constructor
  · have hperm : (insertList l1 []).Perm (insertList l2 []) := insertList_perm l1 l2 h
    exact List.eq_of_perm_of_sorted
      (((List.perm_insertionSort entryLE _).trans hperm).trans
        (List.perm_insertionSort entryLE _).symm)
      (List.sorted_insertionSort entryLE _)
      (List.sorted_insertionSort entryLE _)
  · exact typeEmissionsFrom_pairwise k cus 0

theorem output_schedule_invariant_witness :
    sortEntries (insertList [([1], 2), ([3], 4)] []) =
      sortEntries (insertList [([3], 4), ([1], 2)] []) ∧
    List.Pairwise (fun a b : Nat × Nat => a.1 ≤ b.1)
      (typeEmissions [[NameType.mk [1] 2 7]] ([1], 2)) :=
  output_schedule_invariant [([1], 2), ([3], 4)] [([3], 4), ([1], 2)]
    (List.Perm.swap ([3], 4) ([1], 2) []) [[NameType.mk [1] 2 7]] ([1], 2)

end GdbIndex
